import Mathlib

/-!
Shallow embedding of the FMDL subword-vocabulary learner (`learn_mdl.py`)
and verification of its specification.

Conventions of the embedding:
* Tokens are Lean `String`s; Python string concatenation is `++`.
* The `CodeBook` container (class `modules.CodeBook.CodeBook`, not in the
  repository sources) behaves like a `collections.Counter`: lookup of an
  absent key yields 0, assignment inserts the key, membership tests key
  presence, deletion removes the key.  It is embedded as an association
  list `List (Token × ℤ)` with first-match lookup.
* Python `float` arithmetic is embedded as exact arithmetic: counts are
  rationals, logarithm values are reals.  `math.log` raises `ValueError`
  on a non-positive argument and division raises `ZeroDivisionError` on a
  zero divisor; fallible arithmetic therefore lives in `Option`, with
  `none` standing for a raised exception.
* The dataset collaborator (`modules.DataSet.DataSet`, not in the
  repository sources) is abstracted by the interface `DataOps` below.
-/

abbrev Token := String

/-- A codebook entry: token and its current count. -/
abbrev CB := List (Token × ℤ)

/-- One corpus occurrence context `(prev, w1, w2, next)` around a pair,
as returned by `dataset.search_indices`. -/
abbrev Ctx := Token × Token × Token × Token

/-- Counter-style lookup: the stored count of `w`, or 0 when `w` is absent. -/
def getv (cb : CB) (w : Token) : ℤ :=
  match cb.find? (fun e => e.1 == w) with
  | some e => e.2
  | none => 0

/-- Counter-style membership: is the key `w` present (whatever its value)? -/
def memv (cb : CB) (w : Token) : Bool :=
  cb.any (fun e => e.1 == w)

/-- Store value `v` under key `w`: replace the first matching entry, or
append a new entry when `w` is absent. -/
def setv : CB → Token → ℤ → CB
  | [], w, v => [(w, v)]
  | e :: rest, w, v => if e.1 == w then (w, v) :: rest else e :: setv rest w v

/-- `cb[w] += t` on a Counter: read (0 when absent), add, store. -/
def addv (cb : CB) (w : Token) (t : ℤ) : CB :=
  setv cb w (getv cb w + t)

/-- `del cb[w]`: remove the key `w`.  The CodeBook class is not in the
repository sources; modelled from the spec ("delete any of w1, w1w2, w2
from the Codebook whose resulting count is < 1"), deletion of an absent
key is a no-op. -/
def delv (cb : CB) (w : Token) : CB :=
  cb.filter (fun e => e.1 != w)

/-- Python `math.log`: raises (`none`) on a non-positive argument. -/
noncomputable def mlog (x : ℚ) : Option ℝ :=
  if 0 < x then some (Real.log (x : ℝ)) else none

/-- Python float division followed by `math.log`: raises on a zero
divisor and on a non-positive quotient. -/
noncomputable def mlogdiv (a b : ℚ) : Option ℝ :=
  if b = 0 then none else mlog (a / b)

/-- The mutable state of an `FMDL` object during one epoch:
configuration (`min_count`, `vocab_size`), the fixed `log_base`, the
running corpus token total `data_len`, and the live codebook. -/
structure FMDLState where
  min_count : ℤ
  vocab_size : ℕ
  log_base : ℝ
  data_len : ℤ
  codebook : CB

/-- `FMDL.compute_data_cost(c1w2, c1, c2, n)`: the unigram
log-likelihood delta, term by term in source order; `none` models the
`ValueError`/`ZeroDivisionError` raised when a logarithm argument is not
positive or `n` is zero. -/
noncomputable def compute_data_cost (c1w2 c1 c2 n : ℚ) : Option ℝ := do
  let l1 ← mlogdiv c1 n
  let s2 ← if c1w2 < c1 then
      (mlogdiv (c1 - c1w2) n).map (fun l => ((c1 : ℝ) - (c1w2 : ℝ)) * l)
    else pure 0
  let l3 ← mlogdiv c2 n
  let s4 ← if c1w2 < c2 then
      (mlogdiv (c2 - c1w2) n).map (fun l => ((c2 : ℝ) - (c1w2 : ℝ)) * l)
    else pure 0
  let l5 ← mlogdiv c1w2 n
  let l6 ← mlogdiv (n - c1w2) n
  pure ((c1 : ℝ) * l1 - s2 + (c2 : ℝ) * l3 - s4 - (c1w2 : ℝ) * l5
        + ((n : ℝ) - (c1 : ℝ) - (c2 : ℝ)) * l6)

/-- `FMDL.compute_code_cost(w1, w2, c1, c2, total)`: dictionary length
delta in characters, negated on return. -/
def compute_code_cost (w1 w2 : Token) (c1 c2 total : ℤ) : ℤ :=
  -((if 0 < total then ((w1 ++ w2).length : ℤ) else 0)
    - (if total = c1 then (w1.length : ℤ) else 0)
    - (if total = c2 then (w2.length : ℤ) else 0))

/-- `FMDL.compute_cost(w1, w2, total)`: looks up the standalone counts in
the live codebook and returns `(code_cost * log_base, data_cost)`. -/
noncomputable def compute_cost (s : FMDLState) (w1 w2 : Token) (total : ℤ) :
    Option (ℝ × ℝ) :=
  let c1 := getv s.codebook w1
  let c2 := getv s.codebook w2
  (compute_data_cost (total : ℚ) (c1 : ℚ) (c2 : ℚ) (s.data_len : ℚ)).map
    (fun d => ((compute_code_cost w1 w2 c1 c2 total : ℝ) * s.log_base, d))

/-- The loop body of `FMDL.check_valid(pair, total)` over the context
tuples returned by `search_indices`: decrement `total` once per context
in which `prev+w1` is a codebook entry or, failing that, `w2+next` is. -/
def check_valid (cb : CB) : List Ctx → ℤ → ℤ
  | [], total => total
  | (pw, w1, w2, nw) :: rest, total =>
      check_valid cb rest
        (if memv cb (pw ++ w1) then total - 1
         else if memv cb (w2 ++ nw) then total - 1
         else total)

/-- The codebook mutation of a successful commit (source lines 108-115):
`codebook[w1w2] += total; codebook[w1] -= total; codebook[w2] -= total`,
then delete `w1` and `w2` when their resulting counts fall below 1. -/
def commit_codebook (cb : CB) (w1 w2 : Token) (t : ℤ) : CB :=
  let word := w1 ++ w2
  let cb1 := addv cb word t
  let cb2 := addv cb1 w1 (-t)
  let cb3 := addv cb2 w2 (-t)
  let cb4 := if getv cb3 w1 < 1 then delv cb3 w1 else cb3
  if getv cb4 w2 < 1 then delv cb4 w2 else cb4

/-- `FMDL.commit_and_success(pair, total, cost)`.  `si` is the
`dataset.search_indices` collaborator.  Returns `some (success, state)`;
`none` models an exception escaping from the cost recomputation.  The
`cost` argument is received but, as in the source, never read. -/
noncomputable def commit_and_success (si : Token × Token → List Ctx)
    (s : FMDLState) (pair : Token × Token) (total : ℤ) (cost : ℝ × ℝ) :
    Option (Bool × FMDLState) :=
  let w1 := pair.1
  let w2 := pair.2
  let t := check_valid s.codebook (si pair) total
  if t < s.min_count then some (false, s)
  else
    let s1 : FMDLState := { s with data_len := s.data_len - t }
    match compute_cost s1 w1 w2 t with
    | none => none
    | some c =>
      if 0 < c.1 + c.2 then some (false, s1)
      else some (true, { s1 with codebook := commit_codebook s1.codebook w1 w2 t })

/-- A candidate as built by `collect_candidates`:
`(pair, total, (code_cost, data_cost))`. -/
abbrev Cand := (Token × Token) × ℤ × (ℝ × ℝ)

/-- The candidate-accumulation loop of `FMDL.collect_candidates`: compute
each pair's cost (a raised exception propagates) and keep the pair when
the total cost is negative, preserving input order. -/
noncomputable def candidate_filter (s : FMDLState) :
    List ((Token × Token) × ℤ) → Option (List Cand)
  | [] => some []
  | (pair, total) :: rest =>
      match compute_cost s pair.1 pair.2 total with
      | none => none
      | some c =>
        match candidate_filter s rest with
        | none => none
        | some cs =>
          some (if c.1 + c.2 < 0 then (pair, total, c) :: cs else cs)

/-- Comparison key of the final sort in `collect_candidates`:
`sum(x[-1])`, the total cost. -/
noncomputable def candLE (a b : Cand) : Bool :=
  decide (a.2.2.1 + a.2.2.2 ≤ b.2.2.1 + b.2.2.2)

/-- `FMDL.collect_candidates(pair_stats, threshold=0.8)`.  `pair_stats`
is the `Counter.most_common()` sequence (pairs in descending co-occurrence
order); `most_common(vocab_size // 2)` is its prefix.  The float literal
`0.8` is embedded as `4/5`: for every list length `n` the double rounding
of `n * 0.8` lands on or below `4n/5` without crossing an integer, so
`math.ceil` agrees with the exact rational ceiling.  Python's `sorted` is
a stable sort, embedded as `List.mergeSort`. -/
noncomputable def collect_candidates (s : FMDLState)
    (pair_stats : List ((Token × Token) × ℤ)) : Option (List Cand) :=
  let common := (pair_stats.take (s.vocab_size / 2)).filter
    (fun e => decide (s.min_count ≤ e.2))
  match candidate_filter s common with
  | none => none
  | some candidates =>
    let c := Nat.ceil ((candidates.length : ℚ) * (4/5))
    some ((candidates.mergeSort candLE).take c)

/-- `FMDL.update_codebook(candidates)`: before each commit attempt, abort
with `False` (the CAPPED signal) when the codebook already exceeds
`vocab_size`; otherwise commit in ranked order.  (`tqdm` is a progress
passthrough and the `updated` counter is write-only diagnostics.) -/
noncomputable def update_codebook (si : Token × Token → List Ctx) :
    FMDLState → List Cand → Option (Bool × FMDLState)
  | s, [] => some (true, s)
  | s, c :: rest =>
      if s.vocab_size < s.codebook.length then some (false, s)
      else
        match commit_and_success si s c.1 c.2.1 c.2.2 with
        | none => none
        | some p => update_codebook si p.2 rest

/-- Modelled from the spec: the dataset/codebook collaborators
(`modules.DataSet.DataSet` and the `CodeBook` constructor, both missing
from the sources).  `vocab` is the base alphabet after `build_vocab`;
`dlen` the corpus token total; `pair_stats` the `most_common` sequence of
`build_pair_stats`; `search_indices` the context lookup;
`apply_codebook` the corpus re-encoding; `seed` the fresh epoch codebook
`CodeBook(vocab, stopwords)` ("seed a fresh Codebook from the current
alphabet and stopword set"). -/
structure DataOps (D : Type) where
  vocab : D → List Token
  stopwords : D → List Token
  dlen : D → ℤ
  pair_stats : D → List ((Token × Token) × ℤ)
  search_indices : D → Token × Token → List Ctx
  apply_codebook : D → CB → D
  seed : D → CB

/-- The per-epoch reseeding in `FMDL.train`: fresh codebook and fresh
`data_len` from the current corpus segmentation. -/
def mkEpoch {D : Type} (ops : DataOps D) (d : D) (mc : ℤ) (vs : ℕ)
    (lb : ℝ) : FMDLState :=
  { min_count := mc, vocab_size := vs, log_base := lb,
    data_len := ops.dlen d, codebook := ops.seed d }

/-- The epoch loop of `FMDL.train`.  The third argument is the current
value of the `self.codebook` attribute: `none` before the first epoch has
seeded it, so that `return self.codebook` with `none` models the
`AttributeError` raised when the loop body never ran. -/
noncomputable def trainAux {D : Type} (ops : DataOps D) (mc : ℤ) (vs : ℕ)
    (lb : ℝ) : ℕ → D → Option CB → Option CB
  | 0, _, cbOpt => cbOpt
  | n + 1, d, _ =>
      let s := mkEpoch ops d mc vs lb
      match collect_candidates s (ops.pair_stats d) with
      | none => none
      | some cands =>
        match update_codebook (ops.search_indices d) s cands with
        | none => none
        | some p =>
          if p.1 then
            trainAux ops mc vs lb n (ops.apply_codebook d p.2.codebook)
              (some p.2.codebook)
          else some p.2.codebook

/-- `FMDL.train(iterations, verbose)`: compute
`log_base = -math.log(len(vocab))` once (raising when the alphabet is
empty), then run the epoch loop and return `self.codebook`.  `verbose`
only toggles diagnostics and is omitted. -/
noncomputable def train {D : Type} (ops : DataOps D) (d : D) (mc : ℤ)
    (vs : ℕ) (iterations : ℕ) : Option CB :=
  match mlog (((ops.vocab d).length : ℚ)) with
  | none => none
  | some l => trainAux ops mc vs (-l) iterations d none

/-! ### Helper lemmas about the codebook container -/

theorem getv_setv_self (cb : CB) (w : Token) (v : ℤ) :
    getv (setv cb w v) w = v := by
  induction cb with
  | nil => simp [setv, getv]
  | cons e rest ih =>
    by_cases h : e.1 == w
    · simp [setv, h, getv, List.find?]
    · simp [setv, h, getv, List.find?] at ih ⊢
      exact ih

theorem getv_setv_ne (cb : CB) (w w' : Token) (v : ℤ) (h : w' ≠ w) :
    getv (setv cb w v) w' = getv cb w' := by
  induction cb with
  | nil =>
    have h1 : (w == w') = false := by simpa using fun hh => h hh.symm
    simp [setv, getv, List.find?, h1]
  | cons e rest ih =>
    by_cases he : e.1 == w
    · have he' : e.1 = w := by simpa using he
      simp only [setv, he, if_true, getv, List.find?]
      have h1 : (w == w') = false := by
        simpa using fun hh => h hh.symm
      have h2 : (e.1 == w') = false := by
        simpa [he'] using fun hh => h hh.symm
      simp [h1, h2]
    · simp only [setv, he, if_false, getv, List.find?]
      by_cases h2 : e.1 == w'
      · simp [h2]
      · simp only [h2]
        exact ih

theorem memv_setv_self (cb : CB) (w : Token) (v : ℤ) :
    memv (setv cb w v) w = true := by
  induction cb with
  | nil => simp [setv, memv]
  | cons e rest ih =>
    by_cases h : e.1 == w
    · simp [setv, h, memv]
    · simp only [setv, h, if_false, memv, List.any_cons]
      simp only [memv] at ih
      simp [ih]

theorem memv_setv_ne (cb : CB) (w w' : Token) (v : ℤ) (h : w' ≠ w) :
    memv (setv cb w v) w' = memv cb w' := by
  induction cb with
  | nil =>
    simp [setv, memv]
    intro hh
    exact absurd hh.symm h
  | cons e rest ih =>
    by_cases he : e.1 == w
    · have he' : e.1 = w := by simpa using he
      have h1 : (w == w') = false := by simpa using fun hh => h hh.symm
      have h2 : (e.1 == w') = false := by simpa [he'] using fun hh => h hh.symm
      simp [setv, he, memv, h1, h2]
    · simp only [setv, he, if_false, memv, List.any_cons]
      simp only [memv] at ih
      simp [ih]

theorem getv_addv_self (cb : CB) (w : Token) (t : ℤ) :
    getv (addv cb w t) w = getv cb w + t :=
  getv_setv_self cb w (getv cb w + t)

theorem getv_addv_ne (cb : CB) (w w' : Token) (t : ℤ) (h : w' ≠ w) :
    getv (addv cb w t) w' = getv cb w' :=
  getv_setv_ne cb w w' (getv cb w + t) h

theorem memv_addv_self (cb : CB) (w : Token) (t : ℤ) :
    memv (addv cb w t) w = true :=
  memv_setv_self cb w (getv cb w + t)

theorem memv_addv_ne (cb : CB) (w w' : Token) (t : ℤ) (h : w' ≠ w) :
    memv (addv cb w t) w' = memv cb w' :=
  memv_setv_ne cb w w' (getv cb w + t) h

theorem getv_delv_ne (cb : CB) (w w' : Token) (h : w' ≠ w) :
    getv (delv cb w) w' = getv cb w' := by
  induction cb with
  | nil => simp [delv, getv]
  | cons e rest ih =>
    by_cases he : e.1 == w
    · have he' : e.1 = w := by simpa using he
      have h2 : (e.1 == w') = false := by simpa [he'] using fun hh => h hh.symm
      simp only [delv, List.filter_cons] at ih ⊢
      simp only [bne, he, Bool.not_true, if_false] at ih ⊢
      simp only [getv, List.find?, h2] at ih ⊢
      exact ih
    · simp only [delv, List.filter_cons] at ih ⊢
      simp only [bne, he, Bool.not_false, if_true] at ih ⊢
      by_cases h2 : e.1 == w'
      · simp [getv, List.find?, h2]
      · simp only [getv, List.find?, h2] at ih ⊢
        exact ih

theorem memv_delv_self (cb : CB) (w : Token) :
    memv (delv cb w) w = false := by
  simp only [memv, delv, List.any_eq_false]
  intro e he
  have := List.of_mem_filter he
  simp [bne] at this ⊢
  exact fun hh => absurd hh this

theorem memv_delv_ne (cb : CB) (w w' : Token) (h : w' ≠ w) :
    memv (delv cb w) w' = memv cb w' := by
  induction cb with
  | nil => simp [delv, memv]
  | cons e rest ih =>
    by_cases he : e.1 == w
    · have he' : e.1 = w := by simpa using he
      have h2 : (e.1 == w') = false := by simpa [he'] using fun hh => h hh.symm
      simp only [delv, List.filter_cons, bne, he, Bool.not_true, if_false] at ih ⊢
      simp only [memv, List.any_cons, h2] at ih ⊢
      simpa using ih
    · simp only [delv, List.filter_cons, bne, he, Bool.not_false, if_true] at ih ⊢
      simp only [memv, List.any_cons] at ih ⊢
      simp [ih]

theorem memv_of_getv_ne_zero (cb : CB) (w : Token) (h : getv cb w ≠ 0) :
    memv cb w = true := by
  by_contra hm
  have hm' : memv cb w = false := by simpa using hm
  simp only [memv, List.any_eq_false] at hm'
  have : cb.find? (fun e => e.1 == w) = none := by
    rw [List.find?_eq_none]
    intro e he
    exact hm' e he
  simp [getv, this] at h

theorem setv_length_le (cb : CB) (w : Token) (v : ℤ) :
    (setv cb w v).length ≤ cb.length + 1 := by
  induction cb with
  | nil => simp [setv]
  | cons e rest ih =>
    by_cases h : e.1 == w
    · simp [setv, h]
    · simp [setv, h]
      omega

theorem setv_length_of_memv (cb : CB) (w : Token) (v : ℤ)
    (h : memv cb w = true) : (setv cb w v).length = cb.length := by
  induction cb with
  | nil => simp [memv] at h
  | cons e rest ih =>
    by_cases he : e.1 == w
    · simp [setv, he]
    · simp only [memv, List.any_cons, he, Bool.false_or] at h
      simp [setv, he]
      rw [ih h]

theorem delv_length_le (cb : CB) (w : Token) :
    (delv cb w).length ≤ cb.length :=
  List.length_filter_le _ cb

/-! ### C7: check_valid -/

/-- The overlap-context predicate of `check_valid`: the pair's occurrence
is discounted when `prev+w1` is a codebook entry or, otherwise, `w2+next`
is one. -/
def overlap_ctx (cb : CB) (c : Ctx) : Bool :=
  memv cb (c.1 ++ c.2.1) || memv cb (c.2.2.1 ++ c.2.2.2)

theorem check_valid_eq_sub_countP (cb : CB) :
    ∀ (ctxs : List Ctx) (total : ℤ),
      check_valid cb ctxs total = total - ctxs.countP (overlap_ctx cb)
  | [], total => by simp [check_valid]
  | (pw, w1, w2, nw) :: rest, total => by
      rw [check_valid, check_valid_eq_sub_countP cb rest, List.countP_cons]
      by_cases h1 : memv cb (pw ++ w1) <;>
        by_cases h2 : memv cb (w2 ++ nw) <;>
        simp [h1, h2, overlap_ctx] <;> omega

/-- C7: for every pair and every non-negative total, `check_valid` returns
`total` minus the number of occurrence contexts of the pair in which
`prev+w1` is a codebook entry or (otherwise) `w2+next` is a codebook
entry, each such context decrementing by exactly 1; in particular the
result never exceeds `total`. -/
theorem check_valid_counts_overlaps (cb : CB)
    (si : Token × Token → List Ctx) (pair : Token × Token) (total : ℤ)
    (h : 0 ≤ total) :
    check_valid cb (si pair) total
        = total - ((si pair).countP (overlap_ctx cb))
      ∧ check_valid cb (si pair) total ≤ total := by
  refine ⟨check_valid_eq_sub_countP cb (si pair) total, ?_⟩
  rw [check_valid_eq_sub_countP cb (si pair) total]
  have : (0 : ℤ) ≤ ((si pair).countP (overlap_ctx cb) : ℤ) := by positivity
  omega

/-- Witness for C7 at a concrete state: one context whose left
composition "ab" is a codebook entry, so total 3 is adjusted to 2. -/
theorem check_valid_counts_overlaps_witness :
    (0 : ℤ) ≤ 3 ∧
      (check_valid [("ab", (1 : ℤ))]
            ((fun _ => [("a", "b", "c", "d")]) (("b", "c") : Token × Token)) 3
          = 3 - (((fun _ => [("a", "b", "c", "d")])
              (("b", "c") : Token × Token)).countP
                (overlap_ctx [("ab", (1 : ℤ))]))
        ∧ check_valid [("ab", (1 : ℤ))]
            ((fun _ => [("a", "b", "c", "d")]) (("b", "c") : Token × Token)) 3
            ≤ 3) :=
  ⟨by norm_num,
   check_valid_counts_overlaps [("ab", (1 : ℤ))]
     (fun _ => [("a", "b", "c", "d")]) ("b", "c") 3 (by norm_num)⟩

/-! ### C9: code cost and cost pair -/

/-- Modelled from the spec (§4.1 `code_cost_raw`): add
`length(w1) + length(w2)` when `total > 0`, subtract `length(w1)` when
`total == c1` and `length(w2)` when `total == c2`. -/
def code_cost_raw_spec (w1 w2 : Token) (c1 c2 total : ℤ) : ℤ :=
  (if 0 < total then (w1.length : ℤ) + (w2.length : ℤ) else 0)
    - (if total = c1 then (w1.length : ℤ) else 0)
    - (if total = c2 then (w2.length : ℤ) else 0)

/-- C9: `compute_code_cost` returns the negation of the raw
dictionary-length delta (add `len w1 + len w2` if `total > 0`, subtract
`len w1` if `total = c1`, subtract `len w2` if `total = c2`), and
`compute_cost` returns the pair `(code_cost * log_base, data_cost)` built
from the codebook's standalone counts. -/
theorem compute_cost_structure (w1 w2 : Token) (c1 c2 total : ℤ)
    (s : FMDLState) :
    compute_code_cost w1 w2 c1 c2 total
        = -(code_cost_raw_spec w1 w2 c1 c2 total)
      ∧ compute_cost s w1 w2 total
        = (compute_data_cost (total : ℚ) ((getv s.codebook w1 : ℤ) : ℚ)
            ((getv s.codebook w2 : ℤ) : ℚ) ((s.data_len : ℤ) : ℚ)).map
            (fun d => ((compute_code_cost w1 w2 (getv s.codebook w1)
              (getv s.codebook w2) total : ℤ) * s.log_base, d)) := by
  constructor
  · simp [compute_code_cost, code_cost_raw_spec, String.length_append]
  · rfl

/-! ### C2: train with zero iterations -/

/-- C2 (code_bug evidence): with `iterations = 0` the epoch loop never
runs, `self.codebook` is never assigned, and `return self.codebook`
raises `AttributeError`; in the embedding, `train` returns `none` (an
exception) instead of a codebook, for every dataset and configuration. -/
theorem train_zero_iterations_raises {D : Type} (ops : DataOps D) (d : D)
    (mc : ℤ) (vs : ℕ) : train ops d mc vs 0 = none := by
  unfold train
  cases h : mlog (((ops.vocab d).length : ℚ)) with
  | none => rfl
  | some l => simp [trainAux]

/-! ### C3: data cost definedness -/

theorem mlogdiv_eq_of_pos {a b : ℚ} (ha : 0 < a) (hb : 0 < b) :
    mlogdiv a b = some (Real.log ((a / b : ℚ) : ℝ)) := by
  rw [mlogdiv, if_neg (ne_of_gt hb), mlog, if_pos (div_pos ha hb)]

theorem mlogdiv_eq_some {a b : ℚ} {x : ℝ} (h : mlogdiv a b = some x) :
    b ≠ 0 ∧ 0 < a / b := by
  rw [mlogdiv] at h
  by_cases hb : b = 0
  · rw [if_pos hb] at h
    exact absurd h (by simp)
  · rw [if_neg hb, mlog] at h
    by_cases hq : 0 < a / b
    · exact ⟨hb, hq⟩
    · rw [if_neg hq] at h
      exact absurd h (by simp)

/-- C3 counterexample: the claim quantifies over all counts with
`c1 ≥ c1w2 ≥ 0`, `c2 ≥ c1w2` and `n ≥ c1 + c2 - c1w2 ≥ 1`; at
`c1w2 = 0, c1 = 0, c2 = 1, n = 1` these hold, yet the very first term
`c1 * log(c1 / n)` reaches `log 0` and the evaluation raises. -/
theorem compute_data_cost_not_total :
    ¬ (∀ c1w2 c1 c2 n : ℚ, 0 ≤ c1w2 → c1w2 ≤ c1 → c1w2 ≤ c2 →
        1 ≤ c1 + c2 - c1w2 → c1 + c2 - c1w2 ≤ n →
        (compute_data_cost c1w2 c1 c2 n).isSome) := by
  intro h
  have h0 := h 0 0 1 1 (by norm_num) (by norm_num) (by norm_num)
    (by norm_num) (by norm_num)
  have : compute_data_cost 0 0 1 1 = none := by
    simp [compute_data_cost, mlogdiv, mlog]
  rw [this] at h0
  simp at h0

/-- C3 amended: with the two extra hypotheses the counterexamples force —
`c1w2 ≥ 1` (so no count in the formula is zero) and `c1w2 < n` (so the
final term's argument `(n - c1w2)/n` is positive) — every logarithm in
`compute_data_cost` is taken at a positive argument and the evaluation
returns a (finite real) value. -/
theorem compute_data_cost_total_amended (c1w2 c1 c2 n : ℚ)
    (h1 : 1 ≤ c1w2) (h2 : c1w2 ≤ c1) (h3 : c1w2 ≤ c2)
    (h4 : 1 ≤ c1 + c2 - c1w2) (h5 : c1 + c2 - c1w2 ≤ n) (h6 : c1w2 < n) :
    (compute_data_cost c1w2 c1 c2 n).isSome := by
  have hn : 0 < n := lt_of_le_of_lt (by linarith) h6
  have hc1 : 0 < c1 := by linarith
  have hc2 : 0 < c2 := by linarith
  have hcw : 0 < c1w2 := by linarith
  have hnc : 0 < n - c1w2 := by linarith
  rw [compute_data_cost]
  rw [mlogdiv_eq_of_pos hc1 hn, mlogdiv_eq_of_pos hc2 hn,
    mlogdiv_eq_of_pos hcw hn, mlogdiv_eq_of_pos hnc hn]
  by_cases g1 : c1w2 < c1
  · by_cases g2 : c1w2 < c2
    · simp [g1, g2, mlogdiv_eq_of_pos (sub_pos.mpr g1) hn,
        mlogdiv_eq_of_pos (sub_pos.mpr g2) hn]
    · simp [g1, g2, mlogdiv_eq_of_pos (sub_pos.mpr g1) hn]
  · by_cases g2 : c1w2 < c2
    · simp [g1, g2, mlogdiv_eq_of_pos (sub_pos.mpr g2) hn]
    · simp [g1, g2]

/-- Witness for C3 amended at `c1w2 = 2, c1 = 2, c2 = 3, n = 6`. -/
theorem compute_data_cost_total_amended_witness :
    ((1 : ℚ) ≤ 2 ∧ (2 : ℚ) ≤ 2 ∧ (2 : ℚ) ≤ 3 ∧ (1 : ℚ) ≤ 2 + 3 - 2
        ∧ (2 : ℚ) + 3 - 2 ≤ 6 ∧ (2 : ℚ) < 6)
      ∧ (compute_data_cost 2 2 3 6).isSome :=
  ⟨by norm_num,
   compute_data_cost_total_amended 2 2 3 6 (by norm_num) (by norm_num)
     (by norm_num) (by norm_num) (by norm_num) (by norm_num)⟩

/-! ### Commit branch analysis (helpers for C5 and C10) -/

theorem commit_branch_min_count (si : Token × Token → List Ctx)
    (s : FMDLState) (pair : Token × Token) (total : ℤ) (cost : ℝ × ℝ)
    (h : check_valid s.codebook (si pair) total < s.min_count) :
    commit_and_success si s pair total cost = some (false, s) := by
  simp only [commit_and_success]
  rw [if_pos h]

theorem commit_branch_cost (si : Token × Token → List Ctx)
    (s : FMDLState) (pair : Token × Token) (total : ℤ) (cost : ℝ × ℝ)
    (h : s.min_count ≤ check_valid s.codebook (si pair) total)
    (c : ℝ × ℝ)
    (hc : compute_cost
        { s with data_len := s.data_len - check_valid s.codebook (si pair) total }
        pair.1 pair.2 (check_valid s.codebook (si pair) total) = some c)
    (hpos : 0 < c.1 + c.2) :
    commit_and_success si s pair total cost
      = some (false,
          { s with data_len := s.data_len - check_valid s.codebook (si pair) total }) := by
  simp only [commit_and_success]
  rw [if_neg (not_lt.mpr h), hc]
  exact if_pos hpos

theorem commit_data_len_cases (si : Token × Token → List Ctx)
    (s : FMDLState) (pair : Token × Token) (total : ℤ) (cost : ℝ × ℝ)
    (b : Bool) (s' : FMDLState)
    (h : commit_and_success si s pair total cost = some (b, s')) :
    (check_valid s.codebook (si pair) total < s.min_count
        ∧ s' = s)
    ∨ (s.min_count ≤ check_valid s.codebook (si pair) total
        ∧ s'.data_len = s.data_len - check_valid s.codebook (si pair) total) := by
  simp only [commit_and_success] at h
  split at h
  · rename_i hlt
    left
    have h2 := Option.some.inj h
    injection h2 with hb hs
    subst hs
    exact ⟨hlt, rfl⟩
  · rename_i hge
    right
    refine ⟨not_lt.mp hge, ?_⟩
    split at h
    · exact absurd h (by simp)
    · split at h
      · have h2 := Option.some.inj h
        injection h2 with hb hs
        rw [← hs]
      · have h2 := Option.some.inj h
        injection h2 with hb hs
        rw [← hs]

theorem commit_config_preserved (si : Token × Token → List Ctx)
    (s : FMDLState) (pair : Token × Token) (total : ℤ) (cost : ℝ × ℝ)
    (p : Bool × FMDLState)
    (h : commit_and_success si s pair total cost = some p) :
    p.2.min_count = s.min_count ∧ p.2.vocab_size = s.vocab_size
      ∧ p.2.log_base = s.log_base := by
  simp only [commit_and_success] at h
  split at h
  · have := (Option.some.inj h)
    rw [← this]
    exact ⟨rfl, rfl, rfl⟩
  · split at h
    · exact absurd h (by simp)
    · split at h
      · have := (Option.some.inj h)
        rw [← this]
        exact ⟨rfl, rfl, rfl⟩
      · have := (Option.some.inj h)
        rw [← this]
        exact ⟨rfl, rfl, rfl⟩

/-! ### C5: the two failure modes of commit -/

/-- C5: if `commit_and_success` fails because the adjusted total is below
`min_count`, both the codebook and `data_len` are unchanged (the returned
state is `s` itself); if it instead fails at the subsequent
recomputed-cost check, the returned state keeps the codebook of `s` but
its `data_len` has already been decremented by the adjusted total and is
not restored. -/
theorem commit_failure_modes (si : Token × Token → List Ctx)
    (s : FMDLState) (pair : Token × Token) (total : ℤ) (cost : ℝ × ℝ) :
    (check_valid s.codebook (si pair) total < s.min_count →
        commit_and_success si s pair total cost = some (false, s))
    ∧ (s.min_count ≤ check_valid s.codebook (si pair) total →
        ∀ c : ℝ × ℝ,
          compute_cost
              { s with data_len :=
                  s.data_len - check_valid s.codebook (si pair) total }
              pair.1 pair.2 (check_valid s.codebook (si pair) total) = some c →
          0 < c.1 + c.2 →
          commit_and_success si s pair total cost
            = some (false,
                { s with data_len :=
                    s.data_len - check_valid s.codebook (si pair) total })) :=
  ⟨fun h => commit_branch_min_count si s pair total cost h,
   fun h c hc hpos => commit_branch_cost si s pair total cost h c hc hpos⟩

/-- Concrete cost evaluation used by the C5 witness: with `log_base = 0`,
counts `c1 = c2 = 2`, pair count 1 and `n = 4`, the recomputed cost is
`(0, 2 ln 2)`, which is positive. -/
theorem compute_cost_eval_pos :
    compute_cost ⟨1, 10, 0, 4, [("a", 2), ("b", 2)]⟩ "a" "b" 1
      = some (0, 2 * Real.log 2) := by
  have ga : getv [("a", (2:ℤ)), ("b", 2)] "a" = 2 := by rfl
  have gb : getv [("a", (2:ℤ)), ("b", 2)] "b" = 2 := by rfl
  simp only [compute_cost, ga, gb]
  norm_num [compute_data_cost, mlogdiv, mlog, compute_code_cost]
  rw [show (1:ℝ)/2 = 2⁻¹ by norm_num, show (1:ℝ)/4 = 4⁻¹ by norm_num,
    Real.log_inv, Real.log_inv, show (4:ℝ) = 2^2 by norm_num, Real.log_pow]
  push_cast
  ring

/-- Witness for C5: one concrete run through each failure mode.  With
`min_count = 5` and adjusted total 3 the state is returned untouched;
with `min_count = 1`, adjusted total 1 and positive recomputed cost
`2 ln 2`, the codebook is untouched but `data_len` drops from 5 to 4. -/
theorem commit_failure_modes_witness :
    commit_and_success (fun _ => []) ⟨5, 10, 0, 7, []⟩ ("a", "b") 3 (0, 0)
        = some (false, ⟨5, 10, 0, 7, []⟩)
    ∧ commit_and_success (fun _ => [])
        ⟨1, 10, 0, 5, [("a", 2), ("b", 2)]⟩ ("a", "b") 1 (0, 0)
        = some (false, ⟨1, 10, 0, 4, [("a", 2), ("b", 2)]⟩) := by
  constructor
  · exact (commit_failure_modes (fun _ => []) ⟨5, 10, 0, 7, []⟩
      ("a", "b") 3 (0, 0)).1 (by norm_num [check_valid])
  · have hp : (0:ℝ) < ((0 : ℝ), 2 * Real.log 2).1 + ((0 : ℝ), 2 * Real.log 2).2 := by
      have := Real.log_pos (by norm_num : (1:ℝ) < 2)
      simp only
      linarith
    exact (commit_failure_modes (fun _ => [])
      ⟨1, 10, 0, 5, [("a", 2), ("b", 2)]⟩ ("a", "b") 1 (0, 0)).2
      (by norm_num [check_valid]) (0, 2 * Real.log 2) compute_cost_eval_pos hp

/-! ### C10: data_len is monotone -/

/-- C10: assuming `min_count ≥ 1`, every completed call to
`commit_and_success` either leaves `data_len` unchanged (when the
adjusted total is below `min_count`) or strictly decreases `data_len` by
the adjusted total, which is at least `min_count`; consequently
`data_len` never increases across the commits of an epoch. -/
theorem commit_data_len_never_increases :
    (∀ (si : Token × Token → List Ctx) (s : FMDLState)
        (pair : Token × Token) (total : ℤ) (cost : ℝ × ℝ) (b : Bool)
        (s' : FMDLState),
        1 ≤ s.min_count →
        commit_and_success si s pair total cost = some (b, s') →
        (check_valid s.codebook (si pair) total < s.min_count
            ∧ s'.data_len = s.data_len)
          ∨ (s.min_count ≤ check_valid s.codebook (si pair) total
              ∧ s'.data_len
                  = s.data_len - check_valid s.codebook (si pair) total
              ∧ s'.data_len < s.data_len))
    ∧ (∀ (si : Token × Token → List Ctx) (s : FMDLState)
        (cands : List Cand) (b : Bool) (s' : FMDLState),
        1 ≤ s.min_count →
        update_codebook si s cands = some (b, s') →
        s'.data_len ≤ s.data_len) := by
  have part1 : ∀ (si : Token × Token → List Ctx) (s : FMDLState)
      (pair : Token × Token) (total : ℤ) (cost : ℝ × ℝ) (b : Bool)
      (s' : FMDLState),
      1 ≤ s.min_count →
      commit_and_success si s pair total cost = some (b, s') →
      (check_valid s.codebook (si pair) total < s.min_count
          ∧ s'.data_len = s.data_len)
        ∨ (s.min_count ≤ check_valid s.codebook (si pair) total
            ∧ s'.data_len = s.data_len - check_valid s.codebook (si pair) total
            ∧ s'.data_len < s.data_len) := by
    intro si s pair total cost b s' hmc h
    rcases commit_data_len_cases si s pair total cost b s' h with
      ⟨hlt, hs⟩ | ⟨hge, heq⟩
    · exact Or.inl ⟨hlt, by rw [hs]⟩
    · refine Or.inr ⟨hge, heq, ?_⟩
      have h1 : (1:ℤ) ≤ check_valid s.codebook (si pair) total :=
        le_trans hmc hge
      omega
  refine ⟨part1, ?_⟩
  intro si s cands
  induction cands generalizing s with
  | nil =>
    intro b s' hmc h
    simp only [update_codebook] at h
    have h2 := Option.some.inj h
    injection h2 with hb hs
    rw [← hs]
  | cons c rest ih =>
    intro b s' hmc h
    simp only [update_codebook] at h
    split at h
    · have h2 := Option.some.inj h
      injection h2 with hb hs
      rw [← hs]
    · split at h
      · exact absurd h (by simp)
      · rename_i p hp
        have hconf := commit_config_preserved si s c.1 c.2.1 c.2.2 p hp
        have hdl := part1 si s c.1 c.2.1 c.2.2 p.1 p.2 hmc hp
        have hle : p.2.data_len ≤ s.data_len := by
          rcases hdl with ⟨_, he⟩ | ⟨_, _, hlt⟩
          · omega
          · omega
        have hmc2 : 1 ≤ p.2.min_count := by rw [hconf.1]; exact hmc
        exact le_trans (ih p.2 b s' hmc2 h) hle

/-- Witness for C10: the min_count-failure branch leaves `data_len = 7`
untouched, and an empty candidate list keeps `data_len` non-increasing. -/
theorem commit_data_len_never_increases_witness :
    (((3:ℤ) < 5 ∧ (7:ℤ) = 7) ∨ ((5:ℤ) ≤ 3 ∧ (7:ℤ) = 7 - 3 ∧ (7:ℤ) < 7))
    ∧ (7:ℤ) ≤ 7 :=
  ⟨commit_data_len_never_increases.1 (fun _ => []) ⟨5, 10, 0, 7, []⟩
      ("a", "b") 3 (0, 0) false ⟨5, 10, 0, 7, []⟩ (by norm_num)
      (commit_branch_min_count (fun _ => []) ⟨5, 10, 0, 7, []⟩
        ("a", "b") 3 (0, 0) (by norm_num [check_valid])),
   commit_data_len_never_increases.2 (fun _ => []) ⟨5, 10, 0, 7, []⟩
      [] true ⟨5, 10, 0, 7, []⟩ (by norm_num) rfl⟩

/-! ### C1: non-negative recomputed cost and commitment -/

/-- Cost evaluation for the C1 counterexample state: with counts
`c1 = 2, c2 = 3`, adjusted total 2, `n = 6` and `log_base = -ln 2`
(alphabet of size 2), the recomputed cost is exactly `(ln 2, -ln 2)`,
whose sum is 0. -/
theorem compute_cost_eval_zero :
    compute_cost ⟨2, 100, -Real.log 2, 6, [("a", 2), ("b", 3)]⟩ "a" "b" 2
      = some (Real.log 2, -Real.log 2) := by
  have ga : getv [("a", (2:ℤ)), ("b", 3)] "a" = 2 := by rfl
  have gb : getv [("a", (2:ℤ)), ("b", 3)] "b" = 3 := by rfl
  simp only [compute_cost, ga, gb]
  norm_num [compute_data_cost, mlogdiv, mlog, compute_code_cost]
  refine ⟨rfl, ?_⟩
  rw [show (1:ℝ)/3 = 3⁻¹ by norm_num, show (1:ℝ)/2 = 2⁻¹ by norm_num,
    show (1:ℝ)/6 = 6⁻¹ by norm_num, Real.log_inv, Real.log_inv, Real.log_inv,
    show (6:ℝ) = 2*3 by norm_num,
    Real.log_mul (by norm_num) (by norm_num),
    Real.log_div (by norm_num) (by norm_num)]
  ring

/-- The source checks `sum(cost) > 0`, so this zero-cost candidate is
committed: the merge is applied and the codebook changes. -/
theorem commit_zero_cost_eval :
    commit_and_success (fun _ => []) ⟨2, 100, -Real.log 2, 8, [("a", 2), ("b", 3)]⟩
        ("a", "b") 2 (0, 0)
      = some (true, ⟨2, 100, -Real.log 2, 6, [("b", 1), ("ab", 2)]⟩) := by
  simp only [commit_and_success]
  norm_num [check_valid]
  rw [compute_cost_eval_zero]
  have hz : Real.log 2 + -Real.log 2 = 0 := add_neg_cancel _
  norm_num [hz, commit_codebook, Option.some.injEq, Prod.mk.injEq,
    FMDLState.mk.injEq]
  decide

/-- C1 counterexample: it is not true that every candidate whose
recomputed total cost is ≥ 0 is rejected with the codebook unchanged.
At `min_count = 2`, codebook `{a: 2, b: 3}`, `data_len = 8`,
`log_base = -ln 2`, pair `(a, b)` with total 2 and no overlap contexts,
the recomputed cost is exactly `(ln 2, -ln 2)` with sum 0 ≥ 0 — and the
source's `sum(...) > 0` check lets it through: the commit succeeds and
rewrites the codebook to `{b: 1, ab: 2}`. -/
theorem commit_nonneg_cost_not_rejected :
    ¬ (∀ (si : Token × Token → List Ctx) (s : FMDLState)
        (pair : Token × Token) (total : ℤ) (cost : ℝ × ℝ) (c : ℝ × ℝ),
        compute_cost
            { s with data_len :=
                s.data_len - check_valid s.codebook (si pair) total }
            pair.1 pair.2 (check_valid s.codebook (si pair) total) = some c →
        0 ≤ c.1 + c.2 →
        ∃ s' : FMDLState,
          commit_and_success si s pair total cost = some (false, s')
            ∧ s'.codebook = s.codebook) := by
  intro h
  obtain ⟨s', hs, hcb⟩ := h (fun _ => [])
    ⟨2, 100, -Real.log 2, 8, [("a", 2), ("b", 3)]⟩ ("a", "b") 2 (0, 0)
    (Real.log 2, -Real.log 2) compute_cost_eval_zero
    (le_of_eq (add_neg_cancel (Real.log 2)).symm)
  rw [commit_zero_cost_eval] at hs
  have h2 := Option.some.inj hs
  injection h2 with hb hsx
  exact Bool.noConfusion hb

/-- C1 amended: a candidate whose recomputed total cost is strictly
greater than 0 is never committed — `commit_and_success` returns failure
and the returned state's codebook equals the input codebook (the
boundary case of cost exactly 0 is committed, see the counterexample). -/
theorem commit_positive_cost_rejected (si : Token × Token → List Ctx)
    (s : FMDLState) (pair : Token × Token) (total : ℤ) (cost : ℝ × ℝ)
    (c : ℝ × ℝ)
    (hc : compute_cost
        { s with data_len := s.data_len - check_valid s.codebook (si pair) total }
        pair.1 pair.2 (check_valid s.codebook (si pair) total) = some c)
    (hpos : 0 < c.1 + c.2) :
    ∃ s' : FMDLState,
      commit_and_success si s pair total cost = some (false, s')
        ∧ s'.codebook = s.codebook := by
  by_cases hlt : check_valid s.codebook (si pair) total < s.min_count
  · exact ⟨s, commit_branch_min_count si s pair total cost hlt, rfl⟩
  · exact ⟨_, commit_branch_cost si s pair total cost (not_lt.mp hlt) c hc hpos,
      rfl⟩

/-- Witness for C1 amended at a concrete state with recomputed cost
`(0, 2 ln 2)`, strictly positive. -/
theorem commit_positive_cost_rejected_witness :
    ∃ s' : FMDLState,
      commit_and_success (fun _ => []) ⟨1, 10, 0, 5, [("a", 2), ("b", 2)]⟩
          ("a", "b") 1 (0, 0) = some (false, s')
        ∧ s'.codebook = [("a", 2), ("b", 2)] := by
  have hp : (0:ℝ) < ((0:ℝ), 2 * Real.log 2).1 + ((0:ℝ), 2 * Real.log 2).2 := by
    have := Real.log_pos (by norm_num : (1:ℝ) < 2)
    simp only
    linarith
  exact commit_positive_cost_rejected (fun _ => [])
    ⟨1, 10, 0, 5, [("a", 2), ("b", 2)]⟩ ("a", "b") 1 (0, 0)
    (0, 2 * Real.log 2) compute_cost_eval_pos hp

/-! ### C4: entry updates of a successful commit -/

theorem string_ne_of_append_left (w1 w2 : Token) (h : w2 ≠ "") :
    w1 ++ w2 ≠ w1 := by
  intro he
  have hl := congrArg String.length he
  rw [String.length_append] at hl
  have h0 : w2.length = 0 := by omega
  apply h
  cases w2 with
  | mk l =>
    simp [String.length] at h0
    simp [h0]

theorem string_ne_of_append_right (w1 w2 : Token) (h : w1 ≠ "") :
    w1 ++ w2 ≠ w2 := by
  intro he
  have hl := congrArg String.length he
  rw [String.length_append] at hl
  have h0 : w1.length = 0 := by omega
  apply h
  cases w1 with
  | mk l =>
    simp [String.length] at h0
    simp [h0]

theorem getv_commit_codebook_word (cb : CB) (w1 w2 : Token) (t : ℤ)
    (hne : w1 ≠ w2) (hw1 : w1 ≠ "") (hw2 : w2 ≠ "") :
    getv (commit_codebook cb w1 w2 t) (w1 ++ w2) = getv cb (w1 ++ w2) + t := by
  have hne1 : w1 ++ w2 ≠ w1 := string_ne_of_append_left w1 w2 hw2
  have hne2 : w1 ++ w2 ≠ w2 := string_ne_of_append_right w1 w2 hw1
  simp only [commit_codebook]
  set cb3 := addv (addv (addv cb (w1 ++ w2) t) w1 (-t)) w2 (-t) with hcb3
  have g3 : getv cb3 (w1 ++ w2) = getv cb (w1 ++ w2) + t := by
    rw [hcb3, getv_addv_ne _ _ _ _ hne2, getv_addv_ne _ _ _ _ hne1,
      getv_addv_self]
  by_cases hc1 : getv cb3 w1 < 1
  · rw [if_pos hc1]
    by_cases hc2 : getv (delv cb3 w1) w2 < 1
    · rw [if_pos hc2, getv_delv_ne _ _ _ hne2, getv_delv_ne _ _ _ hne1]
      exact g3
    · rw [if_neg hc2, getv_delv_ne _ _ _ hne1]
      exact g3
  · rw [if_neg hc1]
    by_cases hc2 : getv cb3 w2 < 1
    · rw [if_pos hc2, getv_delv_ne _ _ _ hne2]
      exact g3
    · rw [if_neg hc2]
      exact g3

theorem memv_commit_codebook_word (cb : CB) (w1 w2 : Token) (t : ℤ)
    (hw1 : w1 ≠ "") (hw2 : w2 ≠ "") :
    memv (commit_codebook cb w1 w2 t) (w1 ++ w2) = true := by
  have hne1 : w1 ++ w2 ≠ w1 := string_ne_of_append_left w1 w2 hw2
  have hne2 : w1 ++ w2 ≠ w2 := string_ne_of_append_right w1 w2 hw1
  simp only [commit_codebook]
  set cb3 := addv (addv (addv cb (w1 ++ w2) t) w1 (-t)) w2 (-t) with hcb3
  have g3 : memv cb3 (w1 ++ w2) = true := by
    rw [hcb3, memv_addv_ne _ _ _ _ hne2, memv_addv_ne _ _ _ _ hne1,
      memv_addv_self]
  by_cases hc1 : getv cb3 w1 < 1
  · rw [if_pos hc1]
    by_cases hc2 : getv (delv cb3 w1) w2 < 1
    · rw [if_pos hc2, memv_delv_ne _ _ _ hne2, memv_delv_ne _ _ _ hne1]
      exact g3
    · rw [if_neg hc2, memv_delv_ne _ _ _ hne1]
      exact g3
  · rw [if_neg hc1]
    by_cases hc2 : getv cb3 w2 < 1
    · rw [if_pos hc2, memv_delv_ne _ _ _ hne2]
      exact g3
    · rw [if_neg hc2]
      exact g3

theorem getv_cb3_w1 (cb : CB) (w1 w2 : Token) (t : ℤ)
    (hne : w1 ≠ w2) (hw2 : w2 ≠ "") :
    getv (addv (addv (addv cb (w1 ++ w2) t) w1 (-t)) w2 (-t)) w1
      = getv cb w1 - t := by
  have hne1 : w1 ++ w2 ≠ w1 := string_ne_of_append_left w1 w2 hw2
  rw [getv_addv_ne _ _ _ _ hne, getv_addv_self,
    getv_addv_ne _ _ _ _ (fun hh => hne1 hh.symm)]
  ring

theorem getv_cb3_w2 (cb : CB) (w1 w2 : Token) (t : ℤ)
    (hne : w1 ≠ w2) (hw1 : w1 ≠ "") :
    getv (addv (addv (addv cb (w1 ++ w2) t) w1 (-t)) w2 (-t)) w2
      = getv cb w2 - t := by
  have hne2 : w1 ++ w2 ≠ w2 := string_ne_of_append_right w1 w2 hw1
  rw [getv_addv_self, getv_addv_ne _ _ _ _ (fun hh => hne hh.symm),
    getv_addv_ne _ _ _ _ (fun hh => hne2 hh.symm)]
  ring

theorem getv_commit_codebook_w1 (cb : CB) (w1 w2 : Token) (t : ℤ)
    (hne : w1 ≠ w2) (hw2 : w2 ≠ "")
    (h : 1 ≤ getv cb w1 - t) :
    getv (commit_codebook cb w1 w2 t) w1 = getv cb w1 - t := by
  simp only [commit_codebook]
  set cb3 := addv (addv (addv cb (w1 ++ w2) t) w1 (-t)) w2 (-t) with hcb3
  have g3 : getv cb3 w1 = getv cb w1 - t := getv_cb3_w1 cb w1 w2 t hne hw2
  have hc1 : ¬ getv cb3 w1 < 1 := by omega
  rw [if_neg hc1]
  by_cases hc2 : getv cb3 w2 < 1
  · rw [if_pos hc2, getv_delv_ne _ _ _ hne]
    exact g3
  · rw [if_neg hc2]
    exact g3

theorem memv_commit_codebook_w1 (cb : CB) (w1 w2 : Token) (t : ℤ)
    (hne : w1 ≠ w2) (hw2 : w2 ≠ "")
    (h : getv cb w1 - t < 1) :
    memv (commit_codebook cb w1 w2 t) w1 = false := by
  simp only [commit_codebook]
  set cb3 := addv (addv (addv cb (w1 ++ w2) t) w1 (-t)) w2 (-t) with hcb3
  have g3 : getv cb3 w1 = getv cb w1 - t := getv_cb3_w1 cb w1 w2 t hne hw2
  have hc1 : getv cb3 w1 < 1 := by omega
  rw [if_pos hc1]
  by_cases hc2 : getv (delv cb3 w1) w2 < 1
  · rw [if_pos hc2, memv_delv_ne _ _ _ hne, memv_delv_self]
  · rw [if_neg hc2, memv_delv_self]

theorem getv_commit_codebook_w2 (cb : CB) (w1 w2 : Token) (t : ℤ)
    (hne : w1 ≠ w2) (hw1 : w1 ≠ "")
    (h : 1 ≤ getv cb w2 - t) :
    getv (commit_codebook cb w1 w2 t) w2 = getv cb w2 - t := by
  simp only [commit_codebook]
  set cb3 := addv (addv (addv cb (w1 ++ w2) t) w1 (-t)) w2 (-t) with hcb3
  have g3 : getv cb3 w2 = getv cb w2 - t := getv_cb3_w2 cb w1 w2 t hne hw1
  have hne21 : w2 ≠ w1 := fun hh => hne hh.symm
  by_cases hc1 : getv cb3 w1 < 1
  · rw [if_pos hc1]
    have g4 : getv (delv cb3 w1) w2 = getv cb w2 - t := by
      rw [getv_delv_ne _ _ _ hne21]
      exact g3
    rw [if_neg (by omega), g4]
  · rw [if_neg hc1]
    rw [if_neg (by omega), g3]

theorem memv_commit_codebook_w2 (cb : CB) (w1 w2 : Token) (t : ℤ)
    (hne : w1 ≠ w2) (hw1 : w1 ≠ "")
    (h : getv cb w2 - t < 1) :
    memv (commit_codebook cb w1 w2 t) w2 = false := by
  simp only [commit_codebook]
  set cb3 := addv (addv (addv cb (w1 ++ w2) t) w1 (-t)) w2 (-t) with hcb3
  have g3 : getv cb3 w2 = getv cb w2 - t := getv_cb3_w2 cb w1 w2 t hne hw1
  have hne21 : w2 ≠ w1 := fun hh => hne hh.symm
  by_cases hc1 : getv cb3 w1 < 1
  · rw [if_pos hc1]
    have g4 : getv (delv cb3 w1) w2 = getv cb w2 - t := by
      rw [getv_delv_ne _ _ _ hne21]
      exact g3
    rw [if_pos (by omega), memv_delv_self]
  · rw [if_neg hc1]
    rw [if_pos (by omega), memv_delv_self]

/-- Cost evaluation for the C4 counterexample: pair `(a, a)` with
`c1 = c2 = 10`, adjusted total 8, `n = 40` and `log_base = -ln 2` gives
the exactly representable cost `(2 ln 2, 8 ln 2 - 8 ln 5)`, whose sum
`10 ln 2 - 8 ln 5` is negative (`2^10 < 5^8`). -/
theorem compute_cost_eval_shared :
    compute_cost ⟨5, 100, -Real.log 2, 40, [("a", 10)]⟩ "a" "a" 8
      = some (2 * Real.log 2, 8 * Real.log 2 - 8 * Real.log 5) := by
  have ga : getv [("a", (10:ℤ))] "a" = 10 := by rfl
  simp only [compute_cost, ga]
  norm_num [compute_data_cost, mlogdiv, mlog, compute_code_cost,
    String.length_append]
  refine ⟨?_, ?_⟩
  · rw [show ("a" : String).length = 1 from rfl]
    push_cast
    ring
  rw [show (1:ℝ)/4 = 4⁻¹ by norm_num, show (1:ℝ)/20 = 20⁻¹ by norm_num,
    show (1:ℝ)/5 = 5⁻¹ by norm_num, Real.log_inv, Real.log_inv, Real.log_inv,
    Real.log_div (by norm_num) (by norm_num),
    show (20:ℝ) = 4*5 by norm_num, Real.log_mul (by norm_num) (by norm_num),
    show (4:ℝ) = 2^2 by norm_num, Real.log_pow]
  push_cast
  ring

/-- The C4 counterexample commit succeeds: the entry for "a" (which is
both `w1` and `w2`) takes two decrements of 8, reaches `10 - 16 = -6`,
and is deleted. -/
theorem commit_shared_eval :
    commit_and_success (fun _ => []) ⟨5, 100, -Real.log 2, 48, [("a", 10)]⟩
        ("a", "a") 8 (0, 0)
      = some (true, ⟨5, 100, -Real.log 2, 40, [("aa", 8)]⟩) := by
  have hlog : 10 * Real.log 2 < 8 * Real.log 5 := by
    have h := Real.log_lt_log (by norm_num : (0:ℝ) < 1024)
      (by norm_num : (1024:ℝ) < 390625)
    rw [show (1024:ℝ) = 2^10 by norm_num, show (390625:ℝ) = 5^8 by norm_num,
      Real.log_pow, Real.log_pow] at h
    push_cast at h
    linarith
  have hneg : ¬ (0:ℝ) < 2 * Real.log 2 + (8 * Real.log 2 - 8 * Real.log 5) := by
    intro hcon
    linarith
  simp only [commit_and_success]
  norm_num [check_valid]
  rw [compute_cost_eval_shared]
  norm_num [hneg, commit_codebook, Option.some.injEq, Prod.mk.injEq,
    FMDLState.mk.injEq]
  decide

/-- C4 counterexample: the claim quantifies over every successful commit,
but for the candidate pair `(a, a)` (a pair whose two components are the
same token, which legitimately arises from a corpus such as "aaaa...")
the shared entry is decremented twice.  Here a commit succeeds with
adjusted total 8 while the codebook entry for `w1 = "a"` falls from 10 to
absent (read 0), not to `10 - 8 = 2`: it does not decrease by exactly the
adjusted total. -/
theorem commit_shared_pair_entry_drop :
    commit_and_success (fun _ => []) ⟨5, 100, -Real.log 2, 48, [("a", 10)]⟩
        ("a", "a") 8 (0, 0)
      = some (true, ⟨5, 100, -Real.log 2, 40, [("aa", 8)]⟩)
    ∧ check_valid [("a", (10:ℤ))] [] 8 = 8
    ∧ getv [("aa", (8:ℤ))] "a" ≠ getv [("a", (10:ℤ))] "a" - 8 :=
  ⟨commit_shared_eval, rfl, by decide⟩

/-- C4 amended: for every successful commit of a candidate `(w1, w2)`
with `w1 ≠ w2`, both tokens non-empty, `min_count ≥ 1` and a non-negative
seed count for the merged token: the entry for `w1w2` increases by
exactly the adjusted total `t` and stays present with count ≥ 1; the
entries for `w1` and `w2` each decrease by exactly `t`, and whichever of
them ends with count < 1 is absent from the codebook afterwards. -/
theorem commit_success_entry_updates (si : Token × Token → List Ctx)
    (s : FMDLState) (pair : Token × Token) (total : ℤ) (cost : ℝ × ℝ)
    (s' : FMDLState)
    (hne : pair.1 ≠ pair.2) (hw1 : pair.1 ≠ "") (hw2 : pair.2 ≠ "")
    (hmc : 1 ≤ s.min_count)
    (hw : 0 ≤ getv s.codebook (pair.1 ++ pair.2))
    (h : commit_and_success si s pair total cost = some (true, s')) :
    getv s'.codebook (pair.1 ++ pair.2)
        = getv s.codebook (pair.1 ++ pair.2)
            + check_valid s.codebook (si pair) total
      ∧ 1 ≤ getv s'.codebook (pair.1 ++ pair.2)
      ∧ memv s'.codebook (pair.1 ++ pair.2) = true
      ∧ (1 ≤ getv s.codebook pair.1 - check_valid s.codebook (si pair) total →
          getv s'.codebook pair.1
            = getv s.codebook pair.1 - check_valid s.codebook (si pair) total)
      ∧ (getv s.codebook pair.1 - check_valid s.codebook (si pair) total < 1 →
          memv s'.codebook pair.1 = false)
      ∧ (1 ≤ getv s.codebook pair.2 - check_valid s.codebook (si pair) total →
          getv s'.codebook pair.2
            = getv s.codebook pair.2 - check_valid s.codebook (si pair) total)
      ∧ (getv s.codebook pair.2 - check_valid s.codebook (si pair) total < 1 →
          memv s'.codebook pair.2 = false) := by
  simp only [commit_and_success] at h
  split at h
  · have hinj := Option.some.inj h
    injection hinj with hb _
    exact absurd hb (by simp)
  · rename_i hge
    split at h
    · exact absurd h (by simp)
    · split at h
      · have hinj := Option.some.inj h
        injection hinj with hb _
        exact absurd hb (by simp)
      · have hinj := Option.some.inj h
        injection hinj with hb hs
        have hcb : s'.codebook
            = commit_codebook s.codebook pair.1 pair.2
                (check_valid s.codebook (si pair) total) := by
          rw [← hs]
        have ht : 1 ≤ check_valid s.codebook (si pair) total :=
          le_trans hmc (not_lt.mp hge)
        refine ⟨?_, ?_, ?_, ?_, ?_, ?_, ?_⟩
        · rw [hcb, getv_commit_codebook_word _ _ _ _ hne hw1 hw2]
        · rw [hcb, getv_commit_codebook_word _ _ _ _ hne hw1 hw2]
          omega
        · rw [hcb]
          exact memv_commit_codebook_word _ _ _ _ hw1 hw2
        · intro hge1
          rw [hcb, getv_commit_codebook_w1 _ _ _ _ hne hw2 hge1]
        · intro hlt1
          rw [hcb]
          exact memv_commit_codebook_w1 _ _ _ _ hne hw2 hlt1
        · intro hge2
          rw [hcb, getv_commit_codebook_w2 _ _ _ _ hne hw1 hge2]
        · intro hlt2
          rw [hcb]
          exact memv_commit_codebook_w2 _ _ _ _ hne hw1 hlt2

/-- Cost evaluation for the C4 witness: the spec's canonical example
shape, `c1 = c2 = t = 3`, `n = 6`, cost `(0, -3 ln 2)`. -/
theorem compute_cost_eval_ab :
    compute_cost ⟨1, 100, -Real.log 2, 6, [("a", 3), ("b", 3)]⟩ "a" "b" 3
      = some (0, -(3 * Real.log 2)) := by
  have ga : getv [("a", (3:ℤ)), ("b", 3)] "a" = 3 := by rfl
  have gb : getv [("a", (3:ℤ)), ("b", 3)] "b" = 3 := by rfl
  simp only [compute_cost, ga, gb]
  norm_num [compute_data_cost, mlogdiv, mlog, compute_code_cost,
    String.length_append]
  rw [show (1:ℝ)/2 = 2⁻¹ by norm_num, Real.log_inv]
  ring

/-- The C4 witness commit: merging `(a, b)` with total 3 consumes both
singletons entirely, leaving the codebook `{ab: 3}`. -/
theorem commit_ab_eval :
    commit_and_success (fun _ => []) ⟨1, 100, -Real.log 2, 9, [("a", 3), ("b", 3)]⟩
        ("a", "b") 3 (0, 0)
      = some (true, ⟨1, 100, -Real.log 2, 6, [("ab", 3)]⟩) := by
  have hneg : ¬ 3 * Real.log 2 < 0 := by
    have := Real.log_pos (by norm_num : (1:ℝ) < 2)
    intro hcon
    linarith
  simp only [commit_and_success]
  norm_num [check_valid]
  rw [compute_cost_eval_ab]
  norm_num [hneg, commit_codebook, Option.some.injEq, Prod.mk.injEq,
    FMDLState.mk.injEq]
  decide

/-- Witness for C4 amended: at the concrete successful commit of
`(a, b)` with adjusted total 3, the merged entry "ab" holds 0 + 3 = 3. -/
theorem commit_success_entry_updates_witness :
    (("a" : Token) ≠ "b" ∧ ("a" : Token) ≠ "" ∧ ("b" : Token) ≠ ""
        ∧ (1:ℤ) ≤ 1 ∧ (0:ℤ) ≤ getv [("a", (3:ℤ)), ("b", 3)] ("a" ++ "b"))
      ∧ getv [("ab", (3:ℤ))] ("a" ++ "b")
          = getv [("a", (3:ℤ)), ("b", 3)] ("a" ++ "b")
            + check_valid [("a", (3:ℤ)), ("b", 3)] [] 3
      ∧ 1 ≤ getv [("ab", (3:ℤ))] ("a" ++ "b") := by
  refine ⟨⟨by decide, by decide, by decide, by norm_num, by decide⟩, ?_, ?_⟩
  · exact (commit_success_entry_updates (fun _ => [])
      ⟨1, 100, -Real.log 2, 9, [("a", 3), ("b", 3)]⟩ ("a", "b") 3 (0, 0)
      ⟨1, 100, -Real.log 2, 6, [("ab", 3)]⟩ (by decide) (by decide) (by decide)
      (by norm_num) (by decide) commit_ab_eval).1
  · exact (commit_success_entry_updates (fun _ => [])
      ⟨1, 100, -Real.log 2, 9, [("a", 3), ("b", 3)]⟩ ("a", "b") 3 (0, 0)
      ⟨1, 100, -Real.log 2, 6, [("ab", 3)]⟩ (by decide) (by decide) (by decide)
      (by norm_num) (by decide) commit_ab_eval).2.1

/-! ### C6: the vocabulary cap and the CAPPED signal -/

theorem memv_addv_mono (cb : CB) (w w' : Token) (t : ℤ)
    (h : memv cb w' = true) : memv (addv cb w t) w' = true := by
  by_cases hw : w' = w
  · subst hw
    exact memv_addv_self cb w' t
  · rw [memv_addv_ne _ _ _ _ hw]
    exact h

/-- A completed data cost evaluation forces both standalone counts to be
non-zero: their divided logarithms were taken at a positive argument. -/
theorem compute_data_cost_counts_ne_zero (c1w2 c1 c2 n : ℚ) (r : ℝ)
    (h : compute_data_cost c1w2 c1 c2 n = some r) : c1 ≠ 0 ∧ c2 ≠ 0 := by
  simp only [compute_data_cost, bind] at h
  obtain ⟨l1, h1, h'⟩ := Option.bind_eq_some.mp h
  have f1 := mlogdiv_eq_some h1
  refine ⟨?_, ?_⟩
  · intro hc
    rw [hc] at f1
    simp at f1
  · have hc2 : ∃ l3, mlogdiv c2 n = some l3 := by
      by_cases g1 : c1w2 < c1
      · rw [if_pos g1] at h'
        obtain ⟨s2, h2, h''⟩ := Option.bind_eq_some.mp h'
        obtain ⟨l3, h3, _⟩ := Option.bind_eq_some.mp h''
        exact ⟨l3, h3⟩
      · rw [if_neg g1] at h'
        simp only [Option.pure_def, Option.some_bind] at h'
        obtain ⟨l3, h3, _⟩ := Option.bind_eq_some.mp h'
        exact ⟨l3, h3⟩
    obtain ⟨l3, h3⟩ := hc2
    have f3 := mlogdiv_eq_some h3
    intro hc
    rw [hc] at f3
    simp at f3

/-- When `w1` and `w2` are already codebook keys, a commit's codebook
mutation adds at most one entry (the merged token). -/
theorem commit_codebook_length (cb : CB) (w1 w2 : Token) (t : ℤ)
    (h1 : memv cb w1 = true) (h2 : memv cb w2 = true) :
    (commit_codebook cb w1 w2 t).length ≤ cb.length + 1 := by
  simp only [commit_codebook]
  set cb1 := addv cb (w1 ++ w2) t with hcb1
  have l1 : cb1.length ≤ cb.length + 1 := setv_length_le _ _ _
  have m1 : memv cb1 w1 = true := memv_addv_mono _ _ _ _ h1
  have m1' : memv cb1 w2 = true := memv_addv_mono _ _ _ _ h2
  set cb2 := addv cb1 w1 (-t) with hcb2
  have l2 : cb2.length = cb1.length := setv_length_of_memv _ _ _ m1
  have m2 : memv cb2 w2 = true := memv_addv_mono _ _ _ _ m1'
  set cb3 := addv cb2 w2 (-t) with hcb3
  have l3 : cb3.length = cb2.length := setv_length_of_memv _ _ _ m2
  set cb4 := if getv cb3 w1 < 1 then delv cb3 w1 else cb3 with hcb4
  have l4 : cb4.length ≤ cb3.length := by
    rw [hcb4]
    split
    · exact delv_length_le _ _
    · exact le_refl _
  have l5 : (if getv cb4 w2 < 1 then delv cb4 w2 else cb4).length
      ≤ cb4.length := by
    split
    · exact delv_length_le _ _
    · exact le_refl _
  omega

/-- Every completed commit grows the codebook by at most one entry: the
failure paths leave it unchanged, and on success the standalone counts
were non-zero (else the cost evaluation would have raised), so `w1` and
`w2` were existing keys and only `w1w2` can be new. -/
theorem commit_length (si : Token × Token → List Ctx) (s : FMDLState)
    (pair : Token × Token) (total : ℤ) (cost : ℝ × ℝ) (b : Bool)
    (s' : FMDLState)
    (h : commit_and_success si s pair total cost = some (b, s')) :
    s'.codebook.length ≤ s.codebook.length + 1 := by
  simp only [commit_and_success] at h
  split at h
  · have hinj := Option.some.inj h
    injection hinj with hb hs
    rw [← hs]
    omega
  · split at h
    · exact absurd h (by simp)
    · rename_i c hcost
      split at h
      · have hinj := Option.some.inj h
        injection hinj with hb hs
        rw [← hs]
        exact Nat.le_succ _
      · have hinj := Option.some.inj h
        injection hinj with hb hs
        rw [← hs]
        simp only [compute_cost] at hcost
        obtain ⟨d0, hd0, _⟩ := Option.map_eq_some'.mp hcost
        have hne := compute_data_cost_counts_ne_zero _ _ _ _ _ hd0
        have hg1 : getv s.codebook pair.1 ≠ 0 := by
          intro hz
          apply hne.1
          rw [hz]
          norm_num
        have hg2 : getv s.codebook pair.2 ≠ 0 := by
          intro hz
          apply hne.2
          rw [hz]
          norm_num
        exact commit_codebook_length s.codebook pair.1 pair.2 _
          (memv_of_getv_ne_zero _ _ hg1) (memv_of_getv_ne_zero _ _ hg2)

/-- Through a whole `update_codebook` run the codebook never exceeds
`max initial (vocab_size + 1)`: the size check precedes each commit, so
a commit only happens from a state within the cap, and each commit adds
at most one entry. -/
theorem update_codebook_length (si : Token × Token → List Ctx) :
    ∀ (cands : List Cand) (s : FMDLState) (b : Bool) (s' : FMDLState),
      update_codebook si s cands = some (b, s') →
      s'.codebook.length ≤ max s.codebook.length (s.vocab_size + 1)
  | [], s, b, s' => by
      intro h
      simp only [update_codebook] at h
      have hinj := Option.some.inj h
      injection hinj with hb hs
      rw [← hs]
      exact le_max_left _ _
  | c :: rest, s, b, s' => by
      intro h
      simp only [update_codebook] at h
      split at h
      · have hinj := Option.some.inj h
        injection hinj with hb hs
        rw [← hs]
        exact le_max_left _ _
      · rename_i hcap
        split at h
        · exact absurd h (by simp)
        · rename_i p hp
          have hlen := commit_length si s c.1 c.2.1 c.2.2 p.1 p.2 hp
          have hconf := commit_config_preserved si s c.1 c.2.1 c.2.2 p hp
          have ih := update_codebook_length si rest p.2 b s' h
          have hcap' : s.codebook.length ≤ s.vocab_size := not_lt.mp hcap
          have hp2 : p.2.codebook.length ≤ s.vocab_size + 1 := by omega
          calc s'.codebook.length
              ≤ max p.2.codebook.length (p.2.vocab_size + 1) := ih
            _ = max p.2.codebook.length (s.vocab_size + 1) := by
                rw [hconf.2.1]
            _ ≤ max (s.vocab_size + 1) (s.vocab_size + 1) :=
                max_le_max hp2 (le_refl _)
            _ = s.vocab_size + 1 := max_self _
            _ ≤ max s.codebook.length (s.vocab_size + 1) := le_max_right _ _

/-- When an epoch's `update_codebook` returns `False` (CAPPED), `train`
neither re-encodes the corpus nor runs another epoch: it returns that
epoch's codebook immediately. -/
theorem trainAux_capped {D : Type} (ops : DataOps D) (mc : ℤ) (vs : ℕ)
    (lb : ℝ) (n : ℕ) (d : D) (cbOpt : Option CB) (cands : List Cand)
    (s' : FMDLState)
    (hcol : collect_candidates (mkEpoch ops d mc vs lb) (ops.pair_stats d)
      = some cands)
    (hupd : update_codebook (ops.search_indices d) (mkEpoch ops d mc vs lb)
      cands = some (false, s')) :
    trainAux ops mc vs lb (n + 1) d cbOpt = some s'.codebook := by
  simp only [trainAux, hcol, hupd]
  simp

/-- C6: the size check precedes every commit attempt, so (1) across any
`update_codebook` run the codebook never grows beyond one entry past
`vocab_size` (nor past its initial size, if that was already larger);
(2) once the check fails the epoch aborts in the CAPPED state with no
further candidate committed and the state returned as-is; and (3) a
CAPPED epoch makes the training loop return at once — the corpus is not
re-encoded and no further epoch runs. -/
theorem capped_aborts_and_stops :
    (∀ (si : Token × Token → List Ctx) (s : FMDLState) (cands : List Cand)
        (b : Bool) (s' : FMDLState),
        update_codebook si s cands = some (b, s') →
        s'.codebook.length ≤ max s.codebook.length (s.vocab_size + 1))
    ∧ (∀ (si : Token × Token → List Ctx) (s : FMDLState) (c : Cand)
        (cs : List Cand),
        s.vocab_size < s.codebook.length →
        update_codebook si s (c :: cs) = some (false, s))
    ∧ (∀ (D : Type) (ops : DataOps D) (mc : ℤ) (vs : ℕ) (lb : ℝ) (n : ℕ)
        (d : D) (cbOpt : Option CB) (cands : List Cand) (s' : FMDLState),
        collect_candidates (mkEpoch ops d mc vs lb) (ops.pair_stats d)
          = some cands →
        update_codebook (ops.search_indices d) (mkEpoch ops d mc vs lb) cands
          = some (false, s') →
        trainAux ops mc vs lb (n + 1) d cbOpt = some s'.codebook) := by
  refine ⟨?_, ?_, ?_⟩
  · intro si s cands b s' h
    exact update_codebook_length si cands s b s' h
  · intro si s c cs h
    simp only [update_codebook]
    rw [if_pos h]
  · intro D ops mc vs lb n d cbOpt cands s' hcol hupd
    exact trainAux_capped ops mc vs lb n d cbOpt cands s' hcol hupd

/-- Cost evaluation for the C6 witness state (codebook also carries a
protected "c" entry so that its size 3 exceeds `vocab_size = 2`). -/
theorem compute_cost_eval_abc :
    compute_cost ⟨1, 2, -Real.log 2, 6, [("a", 3), ("b", 3), ("c", 1)]⟩ "a" "b" 3
      = some (0, -(3 * Real.log 2)) := by
  have ga : getv [("a", (3:ℤ)), ("b", 3), ("c", 1)] "a" = 3 := by rfl
  have gb : getv [("a", (3:ℤ)), ("b", 3), ("c", 1)] "b" = 3 := by rfl
  simp only [compute_cost, ga, gb]
  norm_num [compute_data_cost, mlogdiv, mlog, compute_code_cost,
    String.length_append]
  rw [show (1:ℝ)/2 = 2⁻¹ by norm_num, Real.log_inv]
  ring

/-- Candidate collection for the C6 witness: one frequent pair with
negative total cost survives filtering, sorting and the 80% cut. -/
theorem collect_eval :
    collect_candidates ⟨1, 2, -Real.log 2, 6, [("a", 3), ("b", 3), ("c", 1)]⟩
        [(("a", "b"), 3)]
      = some [(("a", "b"), 3, ((0 : ℝ), -(3 * Real.log 2)))] := by
  have hl2 := Real.log_pos (by norm_num : (1:ℝ) < 2)
  have hlt : (0:ℝ) + -(3 * Real.log 2) < 0 := by linarith
  have hlt2 : -(3 * Real.log 2) < 0 := by linarith
  have hceil : Nat.ceil ((1:ℚ) * (4/5)) = 1 := by
    rw [Nat.ceil_eq_iff (by norm_num)]
    constructor
    · norm_num
    · norm_num
  simp only [collect_candidates]
  norm_num [candidate_filter, compute_cost_eval_abc, hlt, hlt2, hceil]

/-- A concrete dataset collaborator for the C6 witness. -/
def unitOps : DataOps Unit where
  vocab := fun _ => ["a", "b", "c"]
  stopwords := fun _ => []
  dlen := fun _ => 6
  pair_stats := fun _ => [(("a", "b"), 3)]
  search_indices := fun _ _ => []
  apply_codebook := fun _ _ => ()
  seed := fun _ => [("a", 3), ("b", 3), ("c", 1)]

/-- Witness for C6: with `vocab_size = 2` and a seeded codebook of size
3, the epoch aborts CAPPED before committing its candidate and `train`
returns that codebook after the single epoch. -/
theorem capped_aborts_and_stops_witness :
    ([("a", (3:ℤ)), ("b", 3), ("c", 1)].length
        ≤ max [("a", (3:ℤ)), ("b", 3), ("c", 1)].length (2 + 1))
    ∧ update_codebook (fun _ => [])
        ⟨1, 2, -Real.log 2, 6, [("a", 3), ("b", 3), ("c", 1)]⟩
        [(("a", "b"), 3, ((0:ℝ), -(3 * Real.log 2)))]
        = some (false, ⟨1, 2, -Real.log 2, 6, [("a", 3), ("b", 3), ("c", 1)]⟩)
    ∧ trainAux unitOps 1 2 (-Real.log 2) 1 () none
        = some [("a", (3:ℤ)), ("b", 3), ("c", 1)] := by
  have hcap : (⟨1, 2, -Real.log 2, 6,
      [("a", (3:ℤ)), ("b", 3), ("c", 1)]⟩ : FMDLState).vocab_size
      < (⟨1, 2, -Real.log 2, 6,
      [("a", (3:ℤ)), ("b", 3), ("c", 1)]⟩ : FMDLState).codebook.length := by
    norm_num
  have hupd := capped_aborts_and_stops.2.1 (fun _ => [])
    ⟨1, 2, -Real.log 2, 6, [("a", 3), ("b", 3), ("c", 1)]⟩
    (("a", "b"), 3, ((0:ℝ), -(3 * Real.log 2))) [] hcap
  refine ⟨?_, hupd, ?_⟩
  · exact capped_aborts_and_stops.1 (fun _ => [])
      ⟨1, 2, -Real.log 2, 6, [("a", 3), ("b", 3), ("c", 1)]⟩
      [(("a", "b"), 3, ((0:ℝ), -(3 * Real.log 2)))] false
      ⟨1, 2, -Real.log 2, 6, [("a", 3), ("b", 3), ("c", 1)]⟩ hupd
  · exact capped_aborts_and_stops.2.2 Unit unitOps 1 2 (-Real.log 2) 0 () none
      [(("a", "b"), 3, ((0:ℝ), -(3 * Real.log 2)))]
      ⟨1, 2, -Real.log 2, 6, [("a", 3), ("b", 3), ("c", 1)]⟩
      collect_eval hupd

/-! ### C8: candidate selection -/

theorem candidate_filter_mem (s : FMDLState) :
    ∀ (l : List ((Token × Token) × ℤ)) (cs : List Cand),
      candidate_filter s l = some cs →
      ∀ c ∈ cs, (c.1, c.2.1) ∈ l
        ∧ compute_cost s c.1.1 c.1.2 c.2.1 = some c.2.2
        ∧ c.2.2.1 + c.2.2.2 < 0
  | [], cs => by
      intro h c hc
      simp only [candidate_filter] at h
      have := Option.some.inj h
      rw [← this] at hc
      simp at hc
  | (pair, total) :: rest, cs => by
      intro h c hc
      simp only [candidate_filter] at h
      split at h
      · exact absurd h (by simp)
      · rename_i cc hcc
        split at h
        · exact absurd h (by simp)
        · rename_i cs' hcs'
          have hinj := Option.some.inj h
          rw [← hinj] at hc
          by_cases hneg : cc.1 + cc.2 < 0
          · rw [if_pos hneg] at hc
            rcases List.mem_cons.mp hc with hhead | htail
            · subst hhead
              exact ⟨List.mem_cons_self _ _, hcc, hneg⟩
            · have ih := candidate_filter_mem s rest cs' hcs' c htail
              exact ⟨List.mem_cons_of_mem _ ih.1, ih.2.1, ih.2.2⟩
          · rw [if_neg hneg] at hc
            have ih := candidate_filter_mem s rest cs' hcs' c hc
            exact ⟨List.mem_cons_of_mem _ ih.1, ih.2.1, ih.2.2⟩

theorem ceil_four_fifths_le (n : ℕ) : Nat.ceil ((n : ℚ) * (4/5)) ≤ n := by
  rw [Nat.ceil_le]
  nlinarith [Nat.cast_nonneg (α := ℚ) n]

theorem candLE_trans : ∀ a b c : Cand,
    candLE a b = true → candLE b c = true → candLE a c = true := by
  intro a b c
  simp only [candLE, decide_eq_true_eq]
  exact le_trans

theorem candLE_total : ∀ a b : Cand, (candLE a b || candLE b a) = true := by
  intro a b
  simp only [candLE, Bool.or_eq_true, decide_eq_true_eq]
  exact le_total _ _

/-- C8: whenever `collect_candidates` completes on a `most_common`
sequence, its result draws only from the first `vocab_size / 2` most
frequent pairs, keeps no pair with co-occurrence below `min_count`, keeps
only candidates whose recorded cost is the pair's computed cost with a
negative sum, is sorted ascending by total cost, has exactly
`ceil(0.8 * kept)` entries where `kept` counts the negative-cost
candidates, and is the `ceil(0.8 * kept)`-prefix of a stable sort of the
kept list: equal-cost candidates keep their frequency-rank order. -/
theorem collect_candidates_spec (s : FMDLState)
    (stats : List ((Token × Token) × ℤ)) (r : List Cand)
    (h : collect_candidates s stats = some r) :
    ∃ pre : List Cand,
      candidate_filter s ((stats.take (s.vocab_size / 2)).filter
          (fun e => decide (s.min_count ≤ e.2))) = some pre
      ∧ (∀ c ∈ r,
          (c.1, c.2.1) ∈ stats.take (s.vocab_size / 2)
          ∧ s.min_count ≤ c.2.1
          ∧ compute_cost s c.1.1 c.1.2 c.2.1 = some c.2.2
          ∧ c.2.2.1 + c.2.2.2 < 0)
      ∧ r.length = Nat.ceil ((pre.length : ℚ) * (4/5))
      ∧ List.Pairwise (fun a b : Cand =>
          a.2.2.1 + a.2.2.2 ≤ b.2.2.1 + b.2.2.2) r
      ∧ ∃ full : List Cand,
          r = full.take (Nat.ceil ((pre.length : ℚ) * (4/5)))
          ∧ full.Perm pre
          ∧ List.Pairwise (fun a b : Cand =>
              a.2.2.1 + a.2.2.2 ≤ b.2.2.1 + b.2.2.2) full
          ∧ ∀ k : ℝ, full.filter (fun x => decide (x.2.2.1 + x.2.2.2 = k))
              = pre.filter (fun x => decide (x.2.2.1 + x.2.2.2 = k)) := by
  simp only [collect_candidates] at h
  split at h
  · exact absurd h (by simp)
  · rename_i pre hpre
    have hr := Option.some.inj h
    refine ⟨pre, hpre, ?_, ?_, ?_, ?_⟩
    · intro c hc
      have hc' : c ∈ (pre.mergeSort candLE).take
          (Nat.ceil ((pre.length : ℚ) * (4/5))) := by
        rw [hr]
        exact hc
      have hms : c ∈ pre.mergeSort candLE :=
        List.mem_of_mem_take hc'
      have hpm : c ∈ pre := (List.mergeSort_perm pre candLE).mem_iff.mp hms
      have hmem := candidate_filter_mem s _ pre hpre c hpm
      have hfil := List.mem_filter.mp hmem.1
      refine ⟨hfil.1, ?_, hmem.2.1, hmem.2.2⟩
      have := hfil.2
      simpa using this
    · rw [← hr, List.length_take, List.length_mergeSort]
      exact Nat.min_eq_left (ceil_four_fifths_le pre.length)
    · rw [← hr]
      have hsorted := List.sorted_mergeSort candLE_trans candLE_total pre
      have hs2 : List.Pairwise (fun a b : Cand =>
          a.2.2.1 + a.2.2.2 ≤ b.2.2.1 + b.2.2.2) (pre.mergeSort candLE) :=
        hsorted.imp (fun hab => by simpa [candLE, decide_eq_true_eq] using hab)
      exact hs2.sublist (List.take_sublist _ _)
    · refine ⟨pre.mergeSort candLE, hr.symm,
        List.mergeSort_perm pre candLE, ?_, ?_⟩
      · have hsorted := List.sorted_mergeSort candLE_trans candLE_total pre
        exact hsorted.imp
          (fun hab => by simpa [candLE, decide_eq_true_eq] using hab)
      · intro k
        set p : Cand → Bool := fun x => decide (x.2.2.1 + x.2.2.2 = k)
          with hp
        have hpair : (pre.filter p).Pairwise (fun a b => candLE a b = true) := by
          apply List.pairwise_of_forall_mem_list
          intro a ha b hb
          have ha' := (List.mem_filter.mp ha).2
          have hb' := (List.mem_filter.mp hb).2
          rw [hp] at ha' hb'
          simp only [decide_eq_true_eq] at ha' hb'
          simp [candLE, ha', hb']
        have hsub : (pre.filter p).Sublist pre := List.filter_sublist pre
        have hstab := List.sublist_mergeSort candLE_trans candLE_total
          hpair hsub
        have hsub2 : (pre.filter p).Sublist
            ((pre.mergeSort candLE).filter p) := by
          have := List.Sublist.filter p hstab
          rwa [List.filter_eq_self.mpr
            (fun a ha => (List.mem_filter.mp ha).2)] at this
        have hlen : (pre.filter p).length
            = ((pre.mergeSort candLE).filter p).length :=
          (((List.mergeSort_perm pre candLE).filter p).length_eq).symm
        exact (hsub2.eq_of_length hlen).symm

theorem collect_empty_eval :
    collect_candidates ⟨1, 10, 0, 5, []⟩ [] = some [] := by
  simp [collect_candidates, candidate_filter]

/-- Witness for C8 at the empty statistics sequence. -/
theorem collect_candidates_spec_witness :
    collect_candidates ⟨1, 10, 0, 5, []⟩ [] = some []
    ∧ ∃ pre : List Cand,
      candidate_filter ⟨1, 10, 0, 5, []⟩
          ((([] : List ((Token × Token) × ℤ)).take (10 / 2)).filter
            (fun e => decide ((1:ℤ) ≤ e.2))) = some pre
      ∧ (∀ c ∈ ([] : List Cand),
          (c.1, c.2.1) ∈ ([] : List ((Token × Token) × ℤ)).take (10 / 2)
          ∧ (1:ℤ) ≤ c.2.1
          ∧ compute_cost ⟨1, 10, 0, 5, []⟩ c.1.1 c.1.2 c.2.1 = some c.2.2
          ∧ c.2.2.1 + c.2.2.2 < 0)
      ∧ ([] : List Cand).length = Nat.ceil ((pre.length : ℚ) * (4/5))
      ∧ List.Pairwise (fun a b : Cand =>
          a.2.2.1 + a.2.2.2 ≤ b.2.2.1 + b.2.2.2) ([] : List Cand)
      ∧ ∃ full : List Cand,
          ([] : List Cand) = full.take (Nat.ceil ((pre.length : ℚ) * (4/5)))
          ∧ full.Perm pre
          ∧ List.Pairwise (fun a b : Cand =>
              a.2.2.1 + a.2.2.2 ≤ b.2.2.1 + b.2.2.2) full
          ∧ ∀ k : ℝ, full.filter (fun x => decide (x.2.2.1 + x.2.2.2 = k))
              = pre.filter (fun x => decide (x.2.2.1 + x.2.2.2 = k)) :=
  ⟨collect_empty_eval,
   collect_candidates_spec ⟨1, 10, 0, 5, []⟩ [] [] collect_empty_eval⟩
